import Mathlib

/-!
# Verification of `tools/cabana/streams/replaystream.cc`

A shallow embedding of `ReplayStream` (segment merging, event filter, route
loading, pause) and of `OpenReplayWidget::open`, followed by the properties
proved about them.

Conventions of the embedding:
* C++ `int` segment numbers are `Int`; `uint64_t` timestamps and `uint32_t`
  flags are `Nat` (no arithmetic is performed on them, so no wrap-around).
* Calls on collaborators whose code lives elsewhere (`Replay`,
  `AbstractStream`, Qt) are recorded, in program order, in an explicit log.
-/

namespace ReplayStream

/-! ## Data model -/

/-- The tag `cereal::Event::Which` of an event. Only `CAN` is inspected by the
code; the kinds named in the allow list of `loadRoute` are listed, every other
tag is `other`. -/
inductive Which where
  | CAN
  | ROAD_ENCODE_IDX
  | WIDE_ROAD_ENCODE_IDX
  | CAR_PARAMS
  | other (tag : Nat)
  deriving DecidableEq, Repr

/-- An `Event` of a segment log: its timestamp and its kind. -/
structure Event where
  mono_time : Nat
  which : Which
  deriving DecidableEq, Repr

/-- A `Segment` as `mergeSegments` reads it: `seg->isLoaded()` and
`seg->log->events`. -/
structure Segment where
  isLoaded : Bool
  events : List Event
  deriving DecidableEq, Repr

/-- Modelled from the spec: `segments()`, a mapping of index to segment. Its
type is declared with the provider, not in this file; the loop of
`mergeSegments` uses it as a `std::map<int, std::unique_ptr<Segment>>`: the
entries are listed here in iteration order and `none` is a null pointer. -/
abbrev SegmentMap := List (Int × Option Segment)

/-- Iteration order of a `std::map`: keys strictly ascending. -/
def KeysAscending (segments : SegmentMap) : Prop :=
  (segments.map Prod.fst).Pairwise (· < ·)

instance (segments : SegmentMap) : Decidable (KeysAscending segments) := by
  unfold KeysAscending; infer_instance

/-! ## `std::set<int>` -/

/-- Insertion into a strictly ascending list, keeping it strictly ascending
(an element already present is not inserted again). -/
def insertAscending (n : Int) : List Int → List Int
  | [] => [n]
  | x :: xs =>
    if n < x then n :: x :: xs
    else if n = x then x :: xs
    else x :: insertAscending n xs

theorem mem_insertAscending (n y : Int) (l : List Int) :
    y ∈ insertAscending n l ↔ y = n ∨ y ∈ l := by
  induction l with
  | nil => simp [insertAscending]
  | cons x xs ih =>
    unfold insertAscending
    split_ifs with h1 h2
    · simp
    · subst h2; simp
    · simp [ih]; tauto

theorem pairwise_insertAscending (n : Int) (l : List Int) (h : l.Pairwise (· < ·)) :
    (insertAscending n l).Pairwise (· < ·) := by
  induction l with
  | nil => simp [insertAscending]
  | cons x xs ih =>
    unfold insertAscending
    rw [List.pairwise_cons] at h
    split_ifs with h1 h2
    · refine List.pairwise_cons.2 ⟨?_, List.pairwise_cons.2 h⟩
      intro a ha
      rcases List.mem_cons.1 ha with rfl | ha
      · exact h1
      · exact lt_trans h1 (h.1 a ha)
    · exact List.pairwise_cons.2 h
    · refine List.pairwise_cons.2 ⟨?_, ih h.2⟩
      intro a ha
      rcases (mem_insertAscending n a xs).1 ha with rfl | ha
      · omega
      · exact h.1 a ha

/-- Modelled from the spec: the Processed-Set, a set of segment indices. The
member `processed_segments` is declared in the header, not in this file; the
operations used on it (`count`, `empty`, `rbegin`, `insert`) are those of an
ordered `std::set<int>`: its elements in the container's order, strictly
ascending. -/
structure IntSet where
  elems : List Int
  ascending : elems.Pairwise (· < ·)

instance : DecidableEq IntSet := fun a b =>
  match a, b with
  | ⟨x, _⟩, ⟨y, _⟩ =>
    if h : x = y then isTrue (by subst h; rfl)
    else isFalse (by intro hh; cases hh; exact h rfl)

namespace IntSet

/-- A default-constructed set. -/
def empty : IntSet := ⟨[], List.Pairwise.nil⟩

/-- The method `std::set::empty()`. -/
def isEmpty (s : IntSet) : Bool := s.elems.isEmpty

/-- The method `std::set::count(n)`: 1 when present, 0 otherwise. -/
def count (s : IntSet) (n : Int) : Nat := if n ∈ s.elems then 1 else 0

/-- The element `*rbegin()`: the last one in container order; `none` on an
empty set, where the C++ expression may not be evaluated. -/
def rbegin (s : IntSet) : Option Int := s.elems.getLast?

/-- The method `std::set::insert(n)`. -/
def insert (s : IntSet) (n : Int) : IntSet :=
  ⟨insertAscending n s.elems, pairwise_insertAscending n s.elems s.ascending⟩

/-- The integer `mx` is the greatest element of the set. -/
def IsMax (s : IntSet) (mx : Int) : Prop := mx ∈ s.elems ∧ ∀ x ∈ s.elems, x ≤ mx

end IntSet

/-! ## `ReplayStream::mergeSegments` -/

/-- One call `mergeEvents(events.cbegin(), events.cend(), append)`, together
with the loop variable `n` of the iteration that made it (the index inserted
into `processed_segments` by the statement just before the call). -/
structure MergeCall where
  n : Int
  events : List Event
  append : Bool
  deriving DecidableEq, Repr

/-- The part of the stream's state that `mergeSegments` touches: the member
`processed_segments` and the log of the calls made to `mergeEvents`. -/
structure MergeState where
  processed_segments : IntSet
  merged : List MergeCall

/-- A freshly constructed stream: nothing processed, nothing merged. -/
def MergeState.init : MergeState := ⟨IntSet.empty, []⟩

/-- The value of `processed_segments.empty() || *processed_segments.rbegin() < n`
(the right operand is evaluated only on a non-empty set). -/
def appendFlag (processed_segments : IntSet) (n : Int) : Bool :=
  processed_segments.isEmpty ||
    (match processed_segments.rbegin with
     | some last => decide (last < n)
     | none => false)

/-- The body of the loop of `mergeSegments` for one entry `[n, seg]`. -/
def mergeStep (st : MergeState) (entry : Int × Option Segment) : MergeState :=
  match entry with
  | (_, none) => st
  | (n, some seg) =>
    if seg.isLoaded && st.processed_segments.count n == 0 then
      let events := seg.events
      let append := appendFlag st.processed_segments n
      { processed_segments := st.processed_segments.insert n
        merged := st.merged ++ [⟨n, events, append⟩] }
    else st

/-- The method `ReplayStream::mergeSegments`, run on the current value of
`replay->segments()`. -/
def mergeSegments (st : MergeState) (segments : SegmentMap) : MergeState :=
  segments.foldl mergeStep st

/-- A sequence of `segmentsMerged` notifications: `mergeSegments` is run once
per notification, on the provider state of that moment. -/
def runNotifications (st : MergeState) (states : List SegmentMap) : MergeState :=
  states.foldl mergeSegments st

/-- Index `n` holds a non-null, loaded segment in `segments`. -/
def loadedAt (segments : SegmentMap) (n : Int) : Prop :=
  ∃ seg, (n, some seg) ∈ segments ∧ seg.isLoaded = true

/-- Between two provider states segments only become loaded: what was loaded
stays loaded. -/
def LoadsOnly (a b : SegmentMap) : Prop :=
  ∀ n, loadedAt a n → loadedAt b n

/-! ## The stream sink -/

/-- Modelled from the spec: the splice of `AbstractStream::mergeEvents` in
non-append mode (its code is in abstractstream.cc, not in this file): a stable
merge by timestamp of the new events into the existing stream. An existing
event goes first when its timestamp is not later than that of the new event, so
on equal timestamps what is already in the stream keeps its place in front. -/
def spliceEvents (stream : List Event) : List Event → List Event
  | [] => stream
  | z :: zs =>
    stream.takeWhile (fun x => decide (x.mono_time ≤ z.mono_time)) ++
      z :: spliceEvents (stream.dropWhile (fun x => decide (x.mono_time ≤ z.mono_time))) zs

/-- Modelled from the spec: the sink `AbstractStream::mergeEvents(first, last,
append)`, whose code is in abstractstream.cc and not in this file. It is given
the events and the flag only. In append mode the new events extend the tail of
the merged stream; otherwise they are spliced in by `spliceEvents`. -/
def sinkMergeEvents (stream : List Event) (events : List Event) (append : Bool) :
    List Event :=
  if append then stream ++ events else spliceEvents stream events

/-- The merged stream produced by the calls made so far, starting from an empty
stream: each call passes its events and its flag to the sink. -/
def mergedStream (st : MergeState) : List Event :=
  st.merged.foldl (fun stream c => sinkMergeEvents stream c.events c.append) []

/-- A recorded route: for each segment index, in ascending order, the events of
its log. -/
abbrev Route := List (Int × List Event)

/-- The assumptions on a route: segment indices strictly ascending, the events
of each segment in non-decreasing timestamp order, and no event of a segment
later than an event of a segment with a higher index. -/
def RouteOrdered (route : Route) : Prop :=
  (route.map Prod.fst).Pairwise (· < ·) ∧
  (∀ p ∈ route, p.2.Pairwise (fun e f => e.mono_time ≤ f.mono_time)) ∧
  route.Pairwise (fun p q => ∀ e ∈ p.2, ∀ f ∈ q.2, e.mono_time ≤ f.mono_time)

instance (route : Route) : Decidable (RouteOrdered route) := by
  unfold RouteOrdered; infer_instance

/-- No timestamp is shared across segments: every event of a segment is
strictly earlier than every event of a segment with a higher index. -/
def StrictlyApart (route : Route) : Prop :=
  route.Pairwise (fun p q => ∀ e ∈ p.2, ∀ f ∈ q.2, e.mono_time < f.mono_time)

instance (route : Route) : Decidable (StrictlyApart route) := by
  unfold StrictlyApart; infer_instance

/-- The provider state once the segments listed in `done` have finished
loading: those hold their loaded log, the others are still null. -/
def providerState (route : Route) (done : List Int) : SegmentMap :=
  route.map (fun p => (p.1, if p.1 ∈ done then some ⟨true, p.2⟩ else none))

/-- The provider states seen by `mergeSegments` when the segments complete in
the given order and one notification follows each completion. -/
def completionStates (route : Route) (order : List Int) : List SegmentMap :=
  (List.range order.length).map (fun k => providerState route (order.take (k + 1)))

/-- The events of the segments whose index is in `ps`, in segment order. -/
def streamOf : Route → List Int → List Event
  | [], _ => []
  | p :: rest, ps => (if p.1 ∈ ps then p.2 else []) ++ streamOf rest ps

/-- A provider state agrees with the route: a loaded segment holds the events
the route records for its index. -/
def Consistent (route : Route) (segments : SegmentMap) : Prop :=
  ∀ n seg, (n, some seg) ∈ segments → seg.isLoaded = true → (n, seg.events) ∈ route

/-! ## The stream controller -/

/-- The video choices of the open dialog, naming the constants
`REPLAY_FLAG_NO_VIPC`, `REPLAY_FLAG_NONE`, `REPLAY_FLAG_ECAM`,
`REPLAY_FLAG_DCAM`, `REPLAY_FLAG_QCAMERA`. -/
inductive ReplayFlag where
  | NO_VIPC | NONE | ECAM | DCAM | QCAMERA
  deriving DecidableEq, Repr

/-- A call on a collaborator (the `Replay` provider, Qt, the base class) or a
signal emitted, as the methods below perform them. -/
inductive Effect where
  | replayNew (route : String) (allow : List String) (flags : Nat) (data_dir : String)
  | setSegmentCacheLimit (minutes : Int)
  | installEventFilter
  | connectSeekedTo
  | connectStreamStarted
  | connectSegmentsMerged
  | replayLoad
  | replayStart
  | replayPause (pause : Bool)
  | emitPaused
  | emitResume
  | updateEvent (event : Event)
  | warning (text : String)
  | opPrefixReset
  | newReplayStream
  | deleteReplayStream
  deriving DecidableEq, Repr

/-- What the code reads from outside this file: the setting
`settings.max_cached_minutes`, the outcome of `replay->load()` for a `Replay`
built from a route, data directory and flags, the string
`Route::parseRoute(route).str`, and the values of the flag constants. -/
structure Env where
  max_cached_minutes : Int
  load : String → String → Nat → Bool
  parseRoute : String → String
  flagValue : ReplayFlag → Nat

/-- The member `replay` of a `ReplayStream`: `true` when the `unique_ptr` holds
a `Replay`. -/
structure Controller where
  replay : Bool
  deriving DecidableEq, Repr

/-- The state after the constructor `ReplayStream(parent)`: no `Replay` yet. -/
def Controller.new : Controller := ⟨false⟩

/-- The method `ReplayStream::loadRoute`; `log` is the log of effects so far. -/
def loadRoute (env : Env) (_self : Controller) (route data_dir : String) (replay_flags : Nat)
    (log : List Effect) : Bool × Controller × List Effect :=
  let log := log ++ [Effect.replayNew route
    ["can", "roadEncodeIdx", "wideRoadEncodeIdx", "carParams"] replay_flags data_dir]
  let self : Controller := ⟨true⟩
  let log := log ++ [Effect.setSegmentCacheLimit env.max_cached_minutes]
  let log := log ++ [Effect.installEventFilter]
  let log := log ++ [Effect.connectSeekedTo]
  let log := log ++ [Effect.connectStreamStarted]
  let log := log ++ [Effect.connectSegmentsMerged]
  let log := log ++ [Effect.replayLoad]
  if env.load route data_dir replay_flags then
    (true, self, log ++ [Effect.replayStart])
  else
    (false, self, log)

/-- The method `ReplayStream::eventFilter`. -/
def eventFilter (event : Event) (log : List Effect) : Bool × List Effect :=
  let log := if event.which = Which.CAN then log ++ [Effect.updateEvent event] else log
  (true, log)

/-- The static function `event_filter`: it forwards to the method `eventFilter`
of the stream it is handed, here the log that method writes to. -/
def event_filter (e : Event) (stream : List Effect) : Bool × List Effect :=
  eventFilter e stream

/-- The method `ReplayStream::pause`. Dereferencing a null `replay` has no
defined behaviour: `none`. -/
def pause (self : Controller) (pause : Bool) (log : List Effect) : Option (List Effect) :=
  if self.replay then
    let log := log ++ [Effect.replayPause pause]
    some (log ++ [if pause then Effect.emitPaused else Effect.emitResume])
  else none

/-! ## `OpenReplayWidget::open` -/

/-- The scan behind `lastIndexOf`: `i` is the position of the head, `found` the
last position of `c` seen so far. -/
def lastIndexOfFrom (c : Char) : List Char → Nat → Int → Int
  | [], _, found => found
  | x :: xs, i, found => lastIndexOfFrom c xs (i + 1) (if x = c then (i : Int) else found)

/-- The method `QString::lastIndexOf(c)`: the last position of `c`, or -1. -/
def lastIndexOf (s : List Char) (c : Char) : Int :=
  lastIndexOfFrom c s 0 (-1)

/-- The method `QString::mid(position, n)`. -/
def mid (s : List Char) (position n : Nat) : List Char := (s.drop position).take n

/-- The method `QString::mid(position)`. -/
def midFrom (s : List Char) (position : Nat) : List Char := s.drop position

/-- The array `flags` of `open`, indexed by `choose_video_cb->currentIndex()`. -/
def flags : Fin 5 → ReplayFlag
  | 0 => ReplayFlag.NO_VIPC
  | 1 => ReplayFlag.NONE
  | 2 => ReplayFlag.ECAM
  | 3 => ReplayFlag.DCAM
  | 4 => ReplayFlag.QCAMERA

/-- The first lines of `open`: the text of the route field split at its last
'/' into `data_dir` (up to and including the '/') and `route` (the rest); with no
'/' the data directory is empty and the route is the whole text. -/
def splitRoute (text : String) : String × String :=
  let route := text.toList
  let idx := lastIndexOf route '/'
  if idx != -1 then
    (String.mk (mid route 0 (idx + 1).toNat), String.mk (midFrom route (idx + 1).toNat))
  else
    ("", text)

end ReplayStream

/-- The method `OpenReplayWidget::open`: `text` is `route_edit->text()`,
`currentIndex` the selected video choice, `stream` the pointee of the widget's
`stream` (`none` when it is null). Returns `ret`, the new pointee and the log.
The reset of `op_prefix` is the branch compiled when `__APPLE__` is not
defined. A stream object that was passed in is modified in place by
`loadRoute` also when loading fails. -/
def OpenReplayWidget.open (env : ReplayStream.Env) (text : String) (currentIndex : Fin 5)
    (stream : Option ReplayStream.Controller) (log : List ReplayStream.Effect) :
    Bool × Option ReplayStream.Controller × List ReplayStream.Effect :=
  let data_dir := (ReplayStream.splitRoute text).1
  let route := (ReplayStream.splitRoute text).2
  let is_valid_format := decide ((env.parseRoute route).length > 0)
  if !is_valid_format then
    (false, stream,
      log ++ [ReplayStream.Effect.warning ("Invalid route format: '" ++ route ++ "'")])
  else
    let log := log ++ [ReplayStream.Effect.opPrefixReset]
    let log := if stream.isSome then log else log ++ [ReplayStream.Effect.newReplayStream]
    let replay_stream := stream.getD ReplayStream.Controller.new
    let r := ReplayStream.loadRoute env replay_stream route data_dir
      (env.flagValue (ReplayStream.flags currentIndex)) log
    if !r.1 then
      let log := if stream.isSome then r.2.2 else r.2.2 ++ [ReplayStream.Effect.deleteReplayStream]
      (false, stream.map (fun _ => r.2.1),
        log ++ [ReplayStream.Effect.warning ("Failed to load route: '" ++ route ++ "'")])
    else
      (true, some r.2.1, r.2.2)

namespace ReplayStream

/-! ## Concrete scenarios -/

/-- A provider state: segment 1 loaded, segment 0 null, segment 2 still loading. -/
def stateA : SegmentMap :=
  [(0, none), (1, some ⟨true, [⟨5, Which.CAN⟩]⟩), (2, some ⟨false, []⟩)]

/-- A later provider state: all three segments loaded. -/
def stateB : SegmentMap :=
  [(0, some ⟨true, [⟨1, Which.CAN⟩]⟩), (1, some ⟨true, [⟨5, Which.CAN⟩]⟩),
   (2, some ⟨true, [⟨9, Which.other 3⟩]⟩)]

/-- Ten events with consecutive timestamps starting at `start`. -/
def tenEvents (start : Nat) : List Event :=
  (List.range 10).map (fun i => ⟨start + i, Which.CAN⟩)

/-- A route of three segments of ten events each. -/
def route10 : Route := [(0, tenEvents 0), (1, tenEvents 10), (2, tenEvents 20)]

/-- A route of three segments of one event each, all with the same timestamp
and told apart by their kind. -/
def tieRoute : Route :=
  [(0, [⟨10, Which.CAN⟩]), (1, [⟨10, Which.other 1⟩]), (2, [⟨10, Which.other 2⟩])]

/-- An environment in which a route name is valid, and loads, when it has 20
characters. -/
def env20 : Env :=
  { max_cached_minutes := 30
    load := fun route _ _ => decide (route.length = 20)
    parseRoute := fun route => if route.length = 20 then route else ""
    flagValue := fun f =>
      match f with
      | ReplayFlag.NONE => 0
      | ReplayFlag.DCAM => 2
      | ReplayFlag.ECAM => 4
      | ReplayFlag.QCAMERA => 64
      | ReplayFlag.NO_VIPC => 1024 }


/-! ## Lemmas on the set model -/

theorem IntSet.mem_insert (s : IntSet) (n y : Int) :
    y ∈ (s.insert n).elems ↔ y = n ∨ y ∈ s.elems :=
  mem_insertAscending n y s.elems

theorem IntSet.count_eq_zero (s : IntSet) (n : Int) :
    (s.count n == 0) = true ↔ n ∉ s.elems := by
  unfold IntSet.count
  split_ifs with h <;> simp [h]

theorem getLast?_isMax (l : List Int) (h : l.Pairwise (· < ·)) (mx : Int)
    (hl : l.getLast? = some mx) : mx ∈ l ∧ ∀ x ∈ l, x ≤ mx := by
  induction l with
  | nil => simp at hl
  | cons a t ih =>
    rw [List.pairwise_cons] at h
    cases t with
    | nil =>
      simp at hl
      subst hl
      simp
    | cons b u =>
      rw [List.getLast?_cons_cons] at hl
      obtain ⟨hm, hle⟩ := ih h.2 hl
      refine ⟨List.mem_cons_of_mem _ hm, ?_⟩
      intro x hx
      rcases List.mem_cons.1 hx with rfl | hx
      · exact le_of_lt (h.1 mx hm)
      · exact hle x hx

theorem IntSet.isMax_unique (s : IntSet) (a b : Int) (ha : s.IsMax a) (hb : s.IsMax b) :
    a = b :=
  le_antisymm (hb.2 a ha.1) (ha.2 b hb.1)

/-- The flag computed by the code says: the set is empty, or its maximum is
below `n`. -/
theorem appendFlag_iff (ps : IntSet) (n : Int) :
    appendFlag ps n = true ↔ (ps.elems = [] ∨ ∃ mx, ps.IsMax mx ∧ mx < n) := by
  unfold appendFlag IntSet.isEmpty IntSet.rbegin
  cases hl : ps.elems.getLast? with
  | none =>
    have : ps.elems = [] := List.getLast?_eq_none_iff.1 hl
    simp [this]
  | some last =>
    have hmax := getLast?_isMax ps.elems ps.ascending last hl
    have hne : ps.elems ≠ [] := by
      intro h; rw [h] at hl; simp at hl
    constructor
    · intro h
      right
      refine ⟨last, hmax, ?_⟩
      simpa [hne] using h
    · rintro (h | ⟨mx, hmx, hlt⟩)
      · exact absurd h hne
      · have : mx = last := ps.isMax_unique mx last hmx hmax
        subst this
        simp [hlt]

/-- The flag in elementwise form: every processed index is below `n`. -/
theorem appendFlag_iff_forall (ps : IntSet) (n : Int) :
    appendFlag ps n = true ↔ ∀ x ∈ ps.elems, x < n := by
  rw [appendFlag_iff]
  constructor
  · rintro (h | ⟨mx, hmx, hlt⟩)
    · simp [h]
    · intro x hx
      exact lt_of_le_of_lt (hmx.2 x hx) hlt
  · intro h
    cases hl : ps.elems.getLast? with
    | none => exact Or.inl (List.getLast?_eq_none_iff.1 hl)
    | some last =>
      have hmax := getLast?_isMax ps.elems ps.ascending last hl
      exact Or.inr ⟨last, hmax, h last hmax.1⟩

/-! ## Lemmas on the loop of `mergeSegments` -/

theorem mergeStep_none (st : MergeState) (n : Int) : mergeStep st (n, none) = st := rfl

theorem mergeStep_some (st : MergeState) (n : Int) (seg : Segment) :
    mergeStep st (n, some seg) =
      if seg.isLoaded = true ∧ n ∉ st.processed_segments.elems then
        { processed_segments := st.processed_segments.insert n
          merged := st.merged ++ [⟨n, seg.events, appendFlag st.processed_segments n⟩] }
      else st := by
  unfold mergeStep
  simp only [Bool.and_eq_true, IntSet.count_eq_zero]

theorem mergeSegments_nil (st : MergeState) : mergeSegments st [] = st := rfl

theorem mergeSegments_cons (st : MergeState) (p : Int × Option Segment) (m : SegmentMap) :
    mergeSegments st (p :: m) = mergeSegments (mergeStep st p) m := rfl

theorem mergeSegments_append (st : MergeState) (a b : SegmentMap) :
    mergeSegments st (a ++ b) = mergeSegments (mergeSegments st a) b := by
  unfold mergeSegments
  rw [List.foldl_append]

/-- What one iteration adds: nothing, or exactly the entry's index and one call. -/
theorem mergeStep_effect (st : MergeState) (p : Int × Option Segment) :
    ∃ new : List MergeCall,
      (mergeStep st p).merged = st.merged ++ new ∧
      (∀ x, x ∈ (mergeStep st p).processed_segments.elems ↔
        x ∈ st.processed_segments.elems ∨ x ∈ new.map MergeCall.n) ∧
      (∀ c ∈ new, c.n = p.1 ∧ c.n ∉ st.processed_segments.elems ∧
        ∃ seg, p.2 = some seg ∧ seg.isLoaded = true ∧ c.events = seg.events ∧
          c.append = appendFlag st.processed_segments c.n) ∧
      new.length ≤ 1 := by
  obtain ⟨n, oseg⟩ := p
  cases oseg with
  | none => exact ⟨[], by simp [mergeStep_none]⟩
  | some seg =>
    rw [mergeStep_some]
    split_ifs with h
    · refine ⟨[⟨n, seg.events, appendFlag st.processed_segments n⟩], rfl, ?_, ?_, by simp⟩
      · intro x
        simp [IntSet.mem_insert]
        tauto
      · intro c hc
        simp at hc
        subst hc
        exact ⟨rfl, h.2, seg, rfl, h.1, rfl, rfl⟩
    · exact ⟨[], by simp⟩

/-- What one run of `mergeSegments` adds. -/
theorem mergeSegments_effect (segments : SegmentMap) : ∀ st : MergeState,
    ∃ new : List MergeCall,
      (mergeSegments st segments).merged = st.merged ++ new ∧
      (∀ x, x ∈ (mergeSegments st segments).processed_segments.elems ↔
        x ∈ st.processed_segments.elems ∨ x ∈ new.map MergeCall.n) ∧
      (∀ c ∈ new, c.n ∉ st.processed_segments.elems ∧
        ∃ seg, (c.n, some seg) ∈ segments ∧ seg.isLoaded = true ∧ c.events = seg.events) ∧
      (new.map MergeCall.n).Nodup := by
  induction segments with
  | nil => intro st; exact ⟨[], by simp [mergeSegments_nil]⟩
  | cons p m ih =>
    intro st
    obtain ⟨new1, h1m, h1p, h1c, h1l⟩ := mergeStep_effect st p
    obtain ⟨new2, h2m, h2p, h2c, h2n⟩ := ih (mergeStep st p)
    refine ⟨new1 ++ new2, ?_, ?_, ?_, ?_⟩
    · rw [mergeSegments_cons, h2m, h1m, List.append_assoc]
    · intro x
      rw [mergeSegments_cons, h2p, h1p]
      simp only [List.map_append, List.mem_append]
      tauto
    · intro c hc
      rcases List.mem_append.1 hc with hc | hc
      · obtain ⟨hn, hnot, seg, hseg, hl, he, _⟩ := h1c c hc
        refine ⟨hnot, seg, ?_, hl, he⟩
        rw [hn, ← hseg]
        exact List.mem_cons_self _ _
      · obtain ⟨hnot, seg, hseg, hl, he⟩ := h2c c hc
        refine ⟨?_, seg, List.mem_cons_of_mem _ hseg, hl, he⟩
        intro hx
        exact hnot ((h1p c.n).2 (Or.inl hx))
    · rw [List.map_append, List.nodup_append]
      refine ⟨?_, h2n, ?_⟩
      · match new1, h1l with
        | [], _ => simp
        | [c], _ => simp
      · intro x hx1 hx2
        obtain ⟨c, hc, rfl⟩ := List.mem_map.1 hx2
        exact (h2c c hc).1 ((h1p c.n).2 (Or.inr hx1))

/-- After a run no segment is left loaded but unprocessed. -/
theorem mergeSegments_covers (segments : SegmentMap) : ∀ (st : MergeState) (n : Int),
    loadedAt segments n → n ∈ (mergeSegments st segments).processed_segments.elems := by
  induction segments with
  | nil => intro st n h; obtain ⟨seg, hm, _⟩ := h; simp at hm
  | cons p m ih =>
    intro st n h
    obtain ⟨seg, hm, hl⟩ := h
    rw [mergeSegments_cons]
    rcases List.mem_cons.1 hm with rfl | hm
    · obtain ⟨new, _, hp, _, _⟩ := mergeSegments_effect m (mergeStep st (n, some seg))
      rw [hp]
      left
      rw [mergeStep_some]
      split_ifs with h
      · exact (IntSet.mem_insert _ _ _).2 (Or.inl rfl)
      · by_contra hc
        exact h ⟨hl, hc⟩
    · exact ih _ n ⟨seg, hm, hl⟩

/-- A run over a provider state all of whose loaded segments are processed
changes nothing. -/
theorem mergeSegments_fixed (segments : SegmentMap) (st : MergeState)
    (h : ∀ n, loadedAt segments n → n ∈ st.processed_segments.elems) :
    mergeSegments st segments = st := by
  induction segments with
  | nil => rfl
  | cons p m ih =>
    have hp : mergeStep st p = st := by
      obtain ⟨n, oseg⟩ := p
      cases oseg with
      | none => rfl
      | some seg =>
        rw [mergeStep_some]
        split_ifs with hc
        · exact absurd (h n ⟨seg, List.mem_cons_self _ _, hc.1⟩) hc.2
        · rfl
    rw [mergeSegments_cons, hp]
    apply ih
    intro n hn
    obtain ⟨seg, hm, hl⟩ := hn
    exact h n ⟨seg, List.mem_cons_of_mem _ hm, hl⟩

/-! ## Runs of `mergeSegments` over sorted provider states -/

/-- Effect of one run when the keys are visited in strictly ascending order:
each flag can be read off the set as it was before the run. -/
theorem mergeSegments_effect_ascending (segments : SegmentMap) :
    ∀ st : MergeState, KeysAscending segments →
    ∃ new : List MergeCall,
      (mergeSegments st segments).merged = st.merged ++ new ∧
      (∀ c ∈ new, c.n ∈ segments.map Prod.fst ∧ c.n ∉ st.processed_segments.elems ∧
        (c.append = true ↔ ∀ x ∈ st.processed_segments.elems, x < c.n)) ∧
      (new.map MergeCall.n).Pairwise (· < ·) := by
  induction segments with
  | nil => intro st _; exact ⟨[], by simp [mergeSegments_nil]⟩
  | cons p m ih =>
    intro st hs
    have hs2 : (∀ k ∈ m.map Prod.fst, p.1 < k) ∧ KeysAscending m := by
      unfold KeysAscending at hs ⊢
      rw [List.map_cons, List.pairwise_cons] at hs
      exact hs
    obtain ⟨new1, h1m, h1p, h1c, h1l⟩ := mergeStep_effect st p
    obtain ⟨new2, h2m, h2c, h2s⟩ := ih (mergeStep st p) hs2.2
    have hnew1 : ∀ x ∈ new1.map MergeCall.n, x = p.1 := by
      intro x hx
      obtain ⟨c, hc, rfl⟩ := List.mem_map.1 hx
      exact (h1c c hc).1
    refine ⟨new1 ++ new2, ?_, ?_, ?_⟩
    · rw [mergeSegments_cons, h2m, h1m, List.append_assoc]
    · intro c hc
      rcases List.mem_append.1 hc with hc | hc
      · obtain ⟨hn, hnot, seg, _, _, _, ha⟩ := h1c c hc
        refine ⟨?_, hnot, ?_⟩
        · rw [hn]; simp
        · rw [ha, appendFlag_iff_forall]
      · obtain ⟨hk, hnot, ha⟩ := h2c c hc
        have hlt : p.1 < c.n := hs2.1 _ hk
        refine ⟨List.mem_cons_of_mem _ hk, ?_, ?_⟩
        · intro hx
          exact hnot ((h1p c.n).2 (Or.inl hx))
        · rw [ha]
          constructor
          · intro h x hx
            exact h x ((h1p x).2 (Or.inl hx))
          · intro h x hx
            rcases (h1p x).1 hx with hx | hx
            · exact h x hx
            · rw [hnew1 x hx]; exact hlt
    · rw [List.map_append, List.pairwise_append]
      refine ⟨?_, h2s, ?_⟩
      · match new1, h1l with
        | [], _ => simp
        | [c], _ => simp
      · intro x hx y hy
        obtain ⟨c, hc, rfl⟩ := List.mem_map.1 hy
        rw [hnew1 x hx]
        exact hs2.1 _ (h2c c hc).1

/-- A list of calls whose flags never go from `true` back to `false` is a block
of non-append calls followed by a block of append calls. -/
theorem split_of_flags_monotone (l : List MergeCall)
    (h : l.Pairwise (fun a b => a.append = true → b.append = true)) :
    ∃ l1 l2, l = l1 ++ l2 ∧ (∀ c ∈ l1, c.append = false) ∧ (∀ c ∈ l2, c.append = true) := by
  induction l with
  | nil => exact ⟨[], [], rfl, by simp, by simp⟩
  | cons c t ih =>
    rw [List.pairwise_cons] at h
    cases hc : c.append with
    | true =>
      refine ⟨[], c :: t, rfl, by simp, ?_⟩
      intro d hd
      rcases List.mem_cons.1 hd with rfl | hd
      · exact hc
      · exact h.1 d hd hc
    | false =>
      obtain ⟨l1, l2, ht, h1, h2⟩ := ih h.2
      refine ⟨c :: l1, l2, by rw [ht]; rfl, ?_, h2⟩
      intro d hd
      rcases List.mem_cons.1 hd with rfl | hd
      · exact hc
      · exact h1 d hd

/-- Per-call description of a run: every call comes from one loop iteration,
whose state is the run over the entries before it. -/
theorem mergeSegments_calls (segments : SegmentMap) : ∀ st : MergeState,
    ∃ new : List MergeCall,
      (mergeSegments st segments).merged = st.merged ++ new ∧
      ∀ c ∈ new, ∃ pre seg post,
        segments = pre ++ (c.n, some seg) :: post ∧
        seg.isLoaded = true ∧
        c.n ∉ (mergeSegments st pre).processed_segments.elems ∧
        c.events = seg.events ∧
        c.append = appendFlag (mergeSegments st pre).processed_segments c.n := by
  induction segments with
  | nil => intro st; exact ⟨[], by simp [mergeSegments_nil]⟩
  | cons p m ih =>
    intro st
    obtain ⟨new1, h1m, _, h1c, _⟩ := mergeStep_effect st p
    obtain ⟨new2, h2m, h2c⟩ := ih (mergeStep st p)
    refine ⟨new1 ++ new2, ?_, ?_⟩
    · rw [mergeSegments_cons, h2m, h1m, List.append_assoc]
    · intro c hc
      rcases List.mem_append.1 hc with hc | hc
      · obtain ⟨hn, hnot, seg, hseg, hl, he, ha⟩ := h1c c hc
        refine ⟨[], seg, m, ?_, hl, hnot, he, ha⟩
        rw [hn, ← hseg]
        rfl
      · obtain ⟨pre, seg, post, hsplit, hl, hnot, he, ha⟩ := h2c c hc
        refine ⟨p :: pre, seg, post, ?_, hl, hnot, he, ha⟩
        rw [hsplit]
        rfl

/-- Invariant of every run from the initial state: the processed set is the set
of indices handed to `mergeEvents`, each handed over once. -/
theorem runNotifications_inv (states : List SegmentMap) : ∀ st : MergeState,
    (∀ x, x ∈ st.processed_segments.elems ↔ x ∈ st.merged.map MergeCall.n) →
    (st.merged.map MergeCall.n).Nodup →
    (∀ x, x ∈ (runNotifications st states).processed_segments.elems ↔
      x ∈ (runNotifications st states).merged.map MergeCall.n) ∧
    ((runNotifications st states).merged.map MergeCall.n).Nodup := by
  induction states with
  | nil => intro st h1 h2; exact ⟨h1, h2⟩
  | cons m ms ih =>
    intro st h1 h2
    obtain ⟨new, hm, hp, hc, hn⟩ := mergeSegments_effect m st
    apply ih (mergeSegments st m)
    · intro x
      rw [hp, hm, List.map_append, List.mem_append, h1]
    · rw [hm, List.map_append, List.nodup_append]
      refine ⟨h2, hn, ?_⟩
      intro x hx1 hx2
      obtain ⟨c, hc2, rfl⟩ := List.mem_map.1 hx2
      exact (hc c hc2).1 ((h1 c.n).2 hx1)

theorem runNotifications_snoc (st : MergeState) (states : List SegmentMap) (m : SegmentMap) :
    runNotifications st (states ++ [m]) = mergeSegments (runNotifications st states) m := by
  unfold runNotifications
  rw [List.foldl_append]
  rfl

/-- When segments only ever become loaded, the processed set after each run is
the set of loaded indices of the provider state of that run. -/
theorem runNotifications_converged (states : List SegmentMap) :
    ∀ m : SegmentMap, List.Chain' LoadsOnly (states ++ [m]) →
    ∀ x, x ∈ (runNotifications MergeState.init (states ++ [m])).processed_segments.elems ↔
      loadedAt m x := by
  induction states using List.reverseRecOn with
  | nil =>
    intro m _ x
    rw [List.nil_append]
    show x ∈ (mergeSegments MergeState.init m).processed_segments.elems ↔ _
    obtain ⟨new, _, hp, hc, _⟩ := mergeSegments_effect m MergeState.init
    constructor
    · intro hx
      rcases (hp x).1 hx with hx | hx
      · simp [MergeState.init, IntSet.empty] at hx
      · obtain ⟨c, hc2, rfl⟩ := List.mem_map.1 hx
        obtain ⟨_, seg, hs, hl, _⟩ := hc c hc2
        exact ⟨seg, hs, hl⟩
    · exact mergeSegments_covers m _ x
  | append_singleton ms m0 ih =>
    intro m hchain x
    rw [runNotifications_snoc]
    have hchain0 : List.Chain' LoadsOnly (ms ++ [m0]) := by
      rw [List.append_assoc] at hchain
      exact (List.chain'_append.1 (by simpa using hchain : List.Chain' LoadsOnly ((ms ++ [m0]) ++ [m]))).1
    have hstep : LoadsOnly m0 m := by
      have := (List.chain'_append.1 (by simpa using hchain : List.Chain' LoadsOnly (ms ++ ([m0] ++ [m])))).2.1
      simpa using this
    obtain ⟨new, _, hp, hc, _⟩ := mergeSegments_effect m (runNotifications MergeState.init (ms ++ [m0]))
    constructor
    · intro hx
      rcases (hp x).1 hx with hx | hx
      · exact hstep x ((ih m0 hchain0 x).1 hx)
      · obtain ⟨c, hc2, rfl⟩ := List.mem_map.1 hx
        obtain ⟨_, seg, hs, hl, _⟩ := hc c hc2
        exact ⟨seg, hs, hl⟩
    · exact mergeSegments_covers m _ x

/-! ## Lemmas on the sink model -/

theorem spliceEvents_nil_left (new : List Event) : spliceEvents [] new = new := by
  induction new with
  | nil => rfl
  | cons z zs ih => simp [spliceEvents, ih]

/-- Existing events not later than any new event stay in front. -/
theorem spliceEvents_front (X Y new : List Event)
    (h : ∀ x ∈ X, ∀ z ∈ new, x.mono_time ≤ z.mono_time) :
    spliceEvents (X ++ Y) new = X ++ spliceEvents Y new := by
  cases new with
  | nil => rfl
  | cons z zs =>
    have hX : ∀ x ∈ X, (fun x : Event => decide (x.mono_time ≤ z.mono_time)) x = true :=
      fun x hx => decide_eq_true (h x hx z (List.mem_cons_self _ _))
    simp only [spliceEvents]
    rw [List.takeWhile_append_of_pos hX, List.dropWhile_append_of_pos hX, List.append_assoc]

/-- Existing events strictly later than every new event end up behind the
block. -/
theorem spliceEvents_suffix (new : List Event) : ∀ Y : List Event,
    (∀ y ∈ Y, ∀ z ∈ new, z.mono_time < y.mono_time) → spliceEvents Y new = new ++ Y := by
  induction new with
  | nil => intro Y _; rfl
  | cons z zs ih =>
    intro Y h
    cases Y with
    | nil => simp [spliceEvents_nil_left]
    | cons y ys =>
      have hy : ¬ y.mono_time ≤ z.mono_time :=
        not_le.2 (h y (List.mem_cons_self _ _) z (List.mem_cons_self _ _))
      simp only [spliceEvents, List.takeWhile_cons, List.dropWhile_cons, hy, decide_False]
      simp only [Bool.false_eq_true, if_false, List.nil_append, List.cons_append]
      rw [ih (y :: ys) (fun a ha c hc => h a ha c (List.mem_cons_of_mem _ hc))]

/-- The splice keeps every event, existing and new, exactly once. -/
theorem spliceEvents_perm (new : List Event) : ∀ stream : List Event,
    (spliceEvents stream new).Perm (stream ++ new) := by
  induction new with
  | nil => intro stream; simp [spliceEvents]
  | cons z zs ih =>
    intro stream
    simp only [spliceEvents]
    have h1 := ih (stream.dropWhile (fun x => decide (x.mono_time ≤ z.mono_time)))
    have h2 : (stream.takeWhile (fun x => decide (x.mono_time ≤ z.mono_time)) ++
        z :: spliceEvents (stream.dropWhile (fun x => decide (x.mono_time ≤ z.mono_time))) zs).Perm
        (stream.takeWhile (fun x => decide (x.mono_time ≤ z.mono_time)) ++
          z :: (stream.dropWhile (fun x => decide (x.mono_time ≤ z.mono_time)) ++ zs)) :=
      List.Perm.append_left _ (List.Perm.cons z h1)
    refine h2.trans ?_
    have h3 : (stream.takeWhile (fun x => decide (x.mono_time ≤ z.mono_time)) ++
          z :: (stream.dropWhile (fun x => decide (x.mono_time ≤ z.mono_time)) ++ zs)).Perm
        (stream.takeWhile (fun x => decide (x.mono_time ≤ z.mono_time)) ++
          (stream.dropWhile (fun x => decide (x.mono_time ≤ z.mono_time)) ++ z :: zs)) :=
      List.Perm.append_left _ List.perm_middle.symm
    refine h3.trans ?_
    rw [← List.append_assoc, List.takeWhile_append_dropWhile]

theorem takeWhile_not_later (z : Event) (stream : List Event) :
    ∀ x ∈ stream.takeWhile (fun x => decide (x.mono_time ≤ z.mono_time)),
      x.mono_time ≤ z.mono_time := by
  induction stream with
  | nil => intro x hx; simp at hx
  | cons a t ih =>
    intro x hx
    rw [List.takeWhile_cons] at hx
    by_cases ha : a.mono_time ≤ z.mono_time
    · simp only [ha, decide_True, if_true, List.mem_cons] at hx
      rcases hx with rfl | hx
      · exact ha
      · exact ih x hx
    · simp [ha] at hx

theorem dropWhile_later (z : Event) (stream : List Event)
    (hs : stream.Pairwise (fun a b => a.mono_time ≤ b.mono_time)) :
    ∀ x ∈ stream.dropWhile (fun x => decide (x.mono_time ≤ z.mono_time)),
      z.mono_time < x.mono_time := by
  induction stream with
  | nil => intro x hx; simp at hx
  | cons a t ih =>
    intro x hx
    rw [List.pairwise_cons] at hs
    rw [List.dropWhile_cons] at hx
    by_cases ha : a.mono_time ≤ z.mono_time
    · simp only [ha, decide_True, if_true] at hx
      exact ih hs.2 x hx
    · simp only [ha, decide_False, Bool.false_eq_true, if_false, List.mem_cons] at hx
      rcases hx with rfl | hx
      · omega
      · have := hs.1 x hx
        omega

/-- The splice of a sorted block into a sorted stream is sorted. -/
theorem spliceEvents_sorted (new : List Event) : ∀ stream : List Event,
    stream.Pairwise (fun a b => a.mono_time ≤ b.mono_time) →
    new.Pairwise (fun a b => a.mono_time ≤ b.mono_time) →
    (spliceEvents stream new).Pairwise (fun a b => a.mono_time ≤ b.mono_time) := by
  induction new with
  | nil => intro stream hs _; exact hs
  | cons z zs ih =>
    intro stream hs hn
    rw [List.pairwise_cons] at hn
    simp only [spliceEvents]
    have hdw : (stream.dropWhile (fun x => decide (x.mono_time ≤ z.mono_time))).Pairwise
        (fun a b => a.mono_time ≤ b.mono_time) :=
      hs.sublist (List.dropWhile_sublist _)
    have htw : (stream.takeWhile (fun x => decide (x.mono_time ≤ z.mono_time))).Pairwise
        (fun a b => a.mono_time ≤ b.mono_time) :=
      hs.sublist (List.takeWhile_sublist _)
    have hrest : ∀ y ∈ spliceEvents
        (stream.dropWhile (fun x => decide (x.mono_time ≤ z.mono_time))) zs,
        z.mono_time ≤ y.mono_time := by
      intro y hy
      rcases List.mem_append.1 ((spliceEvents_perm zs _).mem_iff.1 hy) with h | h
      · exact le_of_lt (dropWhile_later z stream hs y h)
      · exact hn.1 y h
    rw [List.pairwise_append]
    refine ⟨htw, List.pairwise_cons.2 ⟨hrest, ih _ hdw hn.2⟩, ?_⟩
    intro a ha b hb
    have haz := takeWhile_not_later z stream a ha
    rcases List.mem_cons.1 hb with rfl | hb
    · exact haz
    · exact le_trans haz (hrest b hb)

theorem streamOf_append (A B : Route) (ps : List Int) :
    streamOf (A ++ B) ps = streamOf A ps ++ streamOf B ps := by
  induction A with
  | nil => rfl
  | cons p rest ih => simp [streamOf, ih]

theorem streamOf_congr (route : Route) (ps qs : List Int)
    (h : ∀ p ∈ route, (p.1 ∈ ps ↔ p.1 ∈ qs)) : streamOf route ps = streamOf route qs := by
  induction route with
  | nil => rfl
  | cons p rest ih =>
    have hp := h p (List.mem_cons_self _ _)
    have hr := ih (fun q hq => h q (List.mem_cons_of_mem _ hq))
    simp only [streamOf, hr]
    by_cases h1 : p.1 ∈ ps
    · simp [h1, hp.1 h1]
    · have h2 : p.1 ∉ qs := fun hq => h1 (hp.2 hq)
      simp [h1, h2]

theorem streamOf_eq_nil (route : Route) (ps : List Int)
    (h : ∀ p ∈ route, p.1 ∉ ps) : streamOf route ps = [] := by
  induction route with
  | nil => rfl
  | cons p rest ih =>
    simp [streamOf, h p (List.mem_cons_self _ _), ih (fun q hq => h q (List.mem_cons_of_mem _ hq))]

theorem mem_streamOf (route : Route) (ps : List Int) (e : Event)
    (h : e ∈ streamOf route ps) : ∃ p ∈ route, p.1 ∈ ps ∧ e ∈ p.2 := by
  induction route with
  | nil => simp [streamOf] at h
  | cons p rest ih =>
    simp only [streamOf, List.mem_append] at h
    rcases h with h | h
    · by_cases hp : p.1 ∈ ps
      · simp only [hp, if_true] at h
        exact ⟨p, List.mem_cons_self _ _, hp, h⟩
      · simp [hp] at h
    · obtain ⟨q, hq, h1, h2⟩ := ih h
      exact ⟨q, List.mem_cons_of_mem _ hq, h1, h2⟩

theorem streamOf_all (route : Route) (ps : List Int) (h : ∀ p ∈ route, p.1 ∈ ps) :
    streamOf route ps = (route.map Prod.snd).flatten := by
  induction route with
  | nil => rfl
  | cons p rest ih =>
    simp [streamOf, h p (List.mem_cons_self _ _),
      ih (fun q hq => h q (List.mem_cons_of_mem _ hq))]

/-- The keys of a route with strictly ascending indices determine the events. -/
theorem route_split (route : Route) (hk : (route.map Prod.fst).Pairwise (· < ·))
    (n : Int) (evs : List Event) (h : (n, evs) ∈ route) :
    ∃ A B, route = A ++ (n, evs) :: B ∧ (∀ p ∈ A, p.1 < n) ∧ (∀ p ∈ B, n < p.1) := by
  obtain ⟨A, B, hAB⟩ := List.append_of_mem h
  refine ⟨A, B, hAB, ?_, ?_⟩
  · intro p hp
    rw [hAB, List.map_append, List.pairwise_append] at hk
    exact hk.2.2 p.1 (List.mem_map_of_mem _ hp) n (by simp)
  · intro p hp
    rw [hAB, List.map_append, List.pairwise_append, List.map_cons, List.pairwise_cons] at hk
    exact hk.2.1.1 p.1 (List.mem_map_of_mem _ hp)

/-! ## The merged stream under the sink model -/

theorem mergedStream_snoc (ps qs : IntSet) (calls : List MergeCall) (c : MergeCall) :
    mergedStream ⟨ps, calls ++ [c]⟩ =
      sinkMergeEvents (mergedStream ⟨qs, calls⟩) c.events c.append := by
  simp [mergedStream, List.foldl_append]

/-- The layout of the processed segments before and after index `n` is added:
the new segment's events land between those of the lower and of the higher
processed segments. -/
theorem streamOf_insert (route : Route) (hk : (route.map Prod.fst).Pairwise (· < ·))
    (ps : IntSet) (n : Int) (evs : List Event) (hmem : (n, evs) ∈ route)
    (hnot : n ∉ ps.elems) :
    ∃ A B, route = A ++ (n, evs) :: B ∧ (∀ p ∈ A, p.1 < n) ∧ (∀ p ∈ B, n < p.1) ∧
      streamOf route ps.elems = streamOf A ps.elems ++ streamOf B ps.elems ∧
      streamOf route (ps.insert n).elems =
        streamOf A ps.elems ++ (evs ++ streamOf B ps.elems) := by
  obtain ⟨A, B, hsplit, hA, hB⟩ := route_split route hk n evs hmem
  have hAeq : streamOf A (ps.insert n).elems = streamOf A ps.elems := by
    apply streamOf_congr
    intro q hq
    rw [IntSet.mem_insert]
    have := hA q hq
    constructor
    · rintro (h | h)
      · omega
      · exact h
    · exact Or.inr
  have hBeq : streamOf B (ps.insert n).elems = streamOf B ps.elems := by
    apply streamOf_congr
    intro q hq
    rw [IntSet.mem_insert]
    have := hB q hq
    constructor
    · rintro (h | h)
      · omega
      · exact h
    · exact Or.inr
  have hin : n ∈ (ps.insert n).elems := (IntSet.mem_insert ps n n).2 (Or.inl rfl)
  refine ⟨A, B, hsplit, hA, hB, ?_, ?_⟩
  · rw [hsplit, streamOf_append]
    simp only [streamOf, hnot, if_false, List.nil_append]
  · rw [hsplit, streamOf_append]
    simp only [streamOf, hin, if_true, hAeq, hBeq]

/-- One loop iteration keeps the merged stream sorted by timestamp and made of
exactly the events of the processed segments. -/
theorem mergeStep_stream_sorted (route : Route) (hr : RouteOrdered route) (st : MergeState)
    (p : Int × Option Segment)
    (hp : ∀ seg, p.2 = some seg → seg.isLoaded = true → (p.1, seg.events) ∈ route)
    (hinv : (mergedStream st).Pairwise (fun a b => a.mono_time ≤ b.mono_time) ∧
      (mergedStream st).Perm (streamOf route st.processed_segments.elems)) :
    (mergedStream (mergeStep st p)).Pairwise (fun a b => a.mono_time ≤ b.mono_time) ∧
      (mergedStream (mergeStep st p)).Perm
        (streamOf route (mergeStep st p).processed_segments.elems) := by
  obtain ⟨n, oseg⟩ := p
  cases oseg with
  | none => exact hinv
  | some seg =>
    rw [mergeStep_some]
    split_ifs with hg
    · obtain ⟨hl, hnot⟩ := hg
      have hmem := hp seg rfl hl
      obtain ⟨A, B, hsplit, hA, hB, hold, hnew⟩ :=
        streamOf_insert route hr.1 st.processed_segments n seg.events hmem hnot
      have hcross := hr.2.2
      rw [hsplit, List.pairwise_append, List.pairwise_cons] at hcross
      have hsorted := hr.2.1 (n, seg.events) hmem
      obtain ⟨ps, calls⟩ := st
      simp only at hnot hinv hold hnew ⊢
      obtain ⟨hs, hperm⟩ := hinv
      rw [mergedStream_snoc (ps.insert n) ps, hnew]
      rw [hold] at hperm
      have htarget : (mergedStream ⟨ps, calls⟩ ++ seg.events).Perm
          (streamOf A ps.elems ++ (seg.events ++ streamOf B ps.elems)) := by
        refine (hperm.append_right seg.events).trans ?_
        rw [List.append_assoc]
        exact List.Perm.append_left _ List.perm_append_comm
      unfold sinkMergeEvents
      cases hflag : appendFlag ps n with
      | true =>
        simp only [if_true]
        refine ⟨?_, htarget⟩
        have hall := (appendFlag_iff_forall ps n).1 hflag
        have hBnil : streamOf B ps.elems = [] := by
          apply streamOf_eq_nil
          intro q hq hin
          have h1 := hall q.1 hin
          have h2 := hB q hq
          omega
        rw [List.pairwise_append]
        refine ⟨hs, hsorted, ?_⟩
        intro x hx z hz
        have hx2 := hperm.mem_iff.1 hx
        rw [hBnil, List.append_nil] at hx2
        obtain ⟨q, hq, _, hev⟩ := mem_streamOf A ps.elems x hx2
        exact hcross.2.2 q hq (n, seg.events) (List.mem_cons_self _ _) x hev z hz
      | false =>
        simp only [Bool.false_eq_true, if_false]
        exact ⟨spliceEvents_sorted seg.events _ hs hsorted,
          (spliceEvents_perm seg.events _).trans htarget⟩
    · exact hinv

/-- When no timestamp is shared across segments, one loop iteration keeps the
merged stream equal to the processed segments laid out in index order. -/
theorem mergeStep_stream_eq (route : Route) (hr : RouteOrdered route)
    (hstrict : StrictlyApart route) (st : MergeState) (p : Int × Option Segment)
    (hp : ∀ seg, p.2 = some seg → seg.isLoaded = true → (p.1, seg.events) ∈ route)
    (hinv : mergedStream st = streamOf route st.processed_segments.elems) :
    mergedStream (mergeStep st p) =
      streamOf route (mergeStep st p).processed_segments.elems := by
  obtain ⟨n, oseg⟩ := p
  cases oseg with
  | none => exact hinv
  | some seg =>
    rw [mergeStep_some]
    split_ifs with hg
    · obtain ⟨hl, hnot⟩ := hg
      have hmem := hp seg rfl hl
      obtain ⟨A, B, hsplit, hA, hB, hold, hnew⟩ :=
        streamOf_insert route hr.1 st.processed_segments n seg.events hmem hnot
      have hcross := hr.2.2
      rw [hsplit, List.pairwise_append, List.pairwise_cons] at hcross
      unfold StrictlyApart at hstrict
      rw [hsplit, List.pairwise_append, List.pairwise_cons] at hstrict
      obtain ⟨ps, calls⟩ := st
      simp only at hnot hinv hold hnew ⊢
      rw [mergedStream_snoc (ps.insert n) ps, hnew, hinv, hold]
      unfold sinkMergeEvents
      cases hflag : appendFlag ps n with
      | true =>
        have hall := (appendFlag_iff_forall ps n).1 hflag
        have hBnil : streamOf B ps.elems = [] := by
          apply streamOf_eq_nil
          intro q hq hin
          have h1 := hall q.1 hin
          have h2 := hB q hq
          omega
        simp [hBnil]
      | false =>
        simp only [Bool.false_eq_true, if_false]
        rw [spliceEvents_front, spliceEvents_suffix]
        · intro y hy z hz
          obtain ⟨q, hq, _, hev⟩ := mem_streamOf B ps.elems y hy
          exact hstrict.2.1.1 q hq z hz y hev
        · intro x hx z hz
          obtain ⟨q, hq, _, hev⟩ := mem_streamOf A ps.elems x hx
          exact hcross.2.2 q hq (n, seg.events) (List.mem_cons_self _ _) x hev z hz
    · exact hinv

/-- A property kept by every loop iteration on an entry that agrees with the
route is kept by a run of `mergeSegments` on a state that agrees with it. -/
theorem mergeSegments_preserves (route : Route) (I : MergeState → Prop)
    (hstep : ∀ (st : MergeState) (p : Int × Option Segment),
      (∀ seg, p.2 = some seg → seg.isLoaded = true → (p.1, seg.events) ∈ route) →
      I st → I (mergeStep st p))
    (segments : SegmentMap) :
    ∀ st : MergeState, Consistent route segments → I st → I (mergeSegments st segments) := by
  induction segments with
  | nil => intro st _ h; exact h
  | cons p m ih =>
    intro st hc hinv
    rw [mergeSegments_cons]
    apply ih
    · intro n seg hm hl
      exact hc n seg (List.mem_cons_of_mem _ hm) hl
    · apply hstep st p _ hinv
      intro seg hs hl
      apply hc p.1 seg _ hl
      rw [← hs]
      exact List.mem_cons_self _ _

/-- The same for a sequence of notifications. -/
theorem runNotifications_preserves (route : Route) (I : MergeState → Prop)
    (hstep : ∀ (st : MergeState) (p : Int × Option Segment),
      (∀ seg, p.2 = some seg → seg.isLoaded = true → (p.1, seg.events) ∈ route) →
      I st → I (mergeStep st p))
    (states : List SegmentMap) :
    ∀ st : MergeState, (∀ m ∈ states, Consistent route m) → I st →
      I (runNotifications st states) := by
  induction states with
  | nil => intro st _ h; exact h
  | cons m ms ih =>
    intro st hc hinv
    show I (runNotifications (mergeSegments st m) ms)
    apply ih
    · intro m2 hm2
      exact hc m2 (List.mem_cons_of_mem _ hm2)
    · exact mergeSegments_preserves route I hstep m st (hc m (List.mem_cons_self _ _)) hinv

theorem providerState_consistent (route : Route) (done : List Int) :
    Consistent route (providerState route done) := by
  intro n seg hm _
  unfold providerState at hm
  obtain ⟨p, hp, heq⟩ := List.mem_map.1 hm
  by_cases hd : p.1 ∈ done
  · simp only [hd, if_true, Prod.mk.injEq, Option.some.injEq] at heq
    obtain ⟨h1, h2⟩ := heq
    subst h1
    rw [← h2]
    exact hp
  · simp [hd] at heq

theorem completionStates_consistent (route : Route) (order : List Int) :
    ∀ m ∈ completionStates route order, Consistent route m := by
  intro m hm
  unfold completionStates at hm
  obtain ⟨k, _, rfl⟩ := List.mem_map.1 hm
  exact providerState_consistent route _

theorem providerState_loadedAt (route : Route) (done : List Int) (p : Int × List Event)
    (hp : p ∈ route) (hd : p.1 ∈ done) : loadedAt (providerState route done) p.1 := by
  refine ⟨⟨true, p.2⟩, ?_, rfl⟩
  unfold providerState
  apply List.mem_map.2
  exact ⟨p, hp, by simp [hd]⟩

/-- Once every segment has completed, in whatever order, every segment is
processed. -/
theorem completion_covers (route : Route) (order : List Int)
    (hcover : ∀ p ∈ route, p.1 ∈ order) :
    ∀ p ∈ route, p.1 ∈ (runNotifications MergeState.init
      (completionStates route order)).processed_segments.elems := by
  intro p hp
  cases order using List.reverseRecOn with
  | nil => exact absurd (hcover p hp) (by simp)
  | append_singleton init last _ =>
    unfold completionStates
    rw [List.length_append, List.length_singleton, List.range_succ, List.map_append,
      List.map_singleton, runNotifications_snoc]
    apply mergeSegments_covers
    have htake : List.take (init.length + 1) (init ++ [last]) = init ++ [last] := by
      apply List.take_of_length_le
      simp
    rw [htake]
    exact providerState_loadedAt route _ p hp (hcover p hp)

/-- Once every segment has completed, in whatever order, the merged stream is
sorted by timestamp and made of exactly the events of the route. -/
theorem completion_stream_sorted (route : Route) (order : List Int) (hr : RouteOrdered route)
    (hcover : ∀ p ∈ route, p.1 ∈ order) :
    (mergedStream (runNotifications MergeState.init
      (completionStates route order))).Pairwise (fun a b => a.mono_time ≤ b.mono_time) ∧
    (mergedStream (runNotifications MergeState.init
      (completionStates route order))).Perm (route.map Prod.snd).flatten := by
  have hinv := runNotifications_preserves route
    (fun st => (mergedStream st).Pairwise (fun a b => a.mono_time ≤ b.mono_time) ∧
      (mergedStream st).Perm (streamOf route st.processed_segments.elems))
    (fun st p hp h => mergeStep_stream_sorted route hr st p hp h)
    (completionStates route order) MergeState.init
    (completionStates_consistent route order)
    (by simp [mergedStream, MergeState.init, IntSet.empty, streamOf_eq_nil])
  simp only at hinv
  rw [streamOf_all route _ (completion_covers route order hcover)] at hinv
  exact hinv

/-- When no timestamp is shared across segments, the merged stream after all
completions is the whole route in index order. -/
theorem completion_stream_eq (route : Route) (order : List Int) (hr : RouteOrdered route)
    (hstrict : StrictlyApart route) (hcover : ∀ p ∈ route, p.1 ∈ order) :
    mergedStream (runNotifications MergeState.init (completionStates route order)) =
      (route.map Prod.snd).flatten := by
  have hinv := runNotifications_preserves route
    (fun st => mergedStream st = streamOf route st.processed_segments.elems)
    (fun st p hp h => mergeStep_stream_eq route hr hstrict st p hp h)
    (completionStates route order) MergeState.init
    (completionStates_consistent route order)
    (by simp [mergedStream, MergeState.init, IntSet.empty, streamOf_eq_nil])
  simp only at hinv
  rw [hinv]
  exact streamOf_all route _ (completion_covers route order hcover)

/-! ## Properties of `mergeSegments` -/

/-- C1: over every finite sequence of `mergeSegments` runs from a fresh stream,
whatever the provider states are, each segment index is handed to `mergeEvents`
(and inserted into `processed_segments`) at most once; the indices inserted by a
run were absent before it and hold a non-null, loaded segment at that run; after
a run no loaded segment is left unprocessed; and when segments only ever become
loaded from one notification to the next, the set after a run is exactly the set
of indices whose segment is non-null and loaded. -/
theorem processed_set_merged_once (states : List SegmentMap) (m : SegmentMap) :
    ((runNotifications MergeState.init (states ++ [m])).merged.map MergeCall.n).Nodup ∧
    (∀ x, x ∈ (runNotifications MergeState.init (states ++ [m])).processed_segments.elems ↔
      x ∈ (runNotifications MergeState.init (states ++ [m])).merged.map MergeCall.n) ∧
    (∃ new : List MergeCall,
      (runNotifications MergeState.init (states ++ [m])).merged =
        (runNotifications MergeState.init states).merged ++ new ∧
      (∀ x, x ∈ (runNotifications MergeState.init (states ++ [m])).processed_segments.elems ↔
        x ∈ (runNotifications MergeState.init states).processed_segments.elems ∨
          x ∈ new.map MergeCall.n) ∧
      ∀ c ∈ new, c.n ∉ (runNotifications MergeState.init states).processed_segments.elems ∧
        loadedAt m c.n) ∧
    (∀ x, loadedAt m x →
      x ∈ (runNotifications MergeState.init (states ++ [m])).processed_segments.elems) ∧
    (List.Chain' LoadsOnly (states ++ [m]) →
      ∀ x, x ∈ (runNotifications MergeState.init (states ++ [m])).processed_segments.elems ↔
        loadedAt m x) := by
  have hinv := runNotifications_inv (states ++ [m]) MergeState.init
    (by intro x; simp [MergeState.init, IntSet.empty]) (by simp [MergeState.init])
  refine ⟨hinv.2, hinv.1, ?_, ?_, ?_⟩
  · rw [runNotifications_snoc]
    obtain ⟨new, hm, hp, hc, _⟩ :=
      mergeSegments_effect m (runNotifications MergeState.init states)
    refine ⟨new, hm, hp, ?_⟩
    intro c hc2
    obtain ⟨hnot, seg, hs, hl, _⟩ := hc c hc2
    exact ⟨hnot, seg, hs, hl⟩
  · intro x hx
    rw [runNotifications_snoc]
    exact mergeSegments_covers m _ x hx
  · intro hchain
    exact runNotifications_converged states m hchain

/-- C2: every call that `mergeSegments` makes to `mergeEvents` comes from one
loop iteration, on an entry `(n, seg)` with `seg` loaded and `n` not yet
processed; the events passed are the segment's whole event sequence in order,
and the append flag is true exactly when the processed set, as it is just
before `n` is inserted, is empty or has its maximum strictly below `n`. -/
theorem mergeSegments_append_flag (st : MergeState) (segments : SegmentMap) :
    ∃ new : List MergeCall,
      (mergeSegments st segments).merged = st.merged ++ new ∧
      ∀ c ∈ new, ∃ pre seg post,
        segments = pre ++ (c.n, some seg) :: post ∧
        seg.isLoaded = true ∧
        c.n ∉ (mergeSegments st pre).processed_segments.elems ∧
        c.events = seg.events ∧
        (c.append = true ↔
          ((mergeSegments st pre).processed_segments.elems = [] ∨
            ∃ mx, (mergeSegments st pre).processed_segments.IsMax mx ∧ mx < c.n)) := by
  obtain ⟨new, hm, hc⟩ := mergeSegments_calls segments st
  refine ⟨new, hm, ?_⟩
  intro c hc2
  obtain ⟨pre, seg, post, hsplit, hl, hnot, he, ha⟩ := hc c hc2
  refine ⟨pre, seg, post, hsplit, hl, hnot, he, ?_⟩
  rw [ha]
  exact appendFlag_iff _ _

/-- C4: running `mergeSegments` a second time on an unchanged provider state
changes nothing: the processed set is the same and no further call to
`mergeEvents` is made. -/
theorem mergeSegments_idempotent (st : MergeState) (segments : SegmentMap) :
    (mergeSegments (mergeSegments st segments) segments).processed_segments =
      (mergeSegments st segments).processed_segments ∧
    (mergeSegments (mergeSegments st segments) segments).merged =
      (mergeSegments st segments).merged ∧
    (mergeSegments (mergeSegments st segments) segments).merged.length =
      (mergeSegments st segments).merged.length := by
  have h := mergeSegments_fixed segments (mergeSegments st segments)
    (fun n hn => mergeSegments_covers segments st n hn)
  rw [h]
  exact ⟨rfl, rfl, rfl⟩

/-- C10: in one run over a provider state whose keys are visited in strictly
ascending order, the calls to `mergeEvents` are in strictly ascending index
order; the flag of each equals "the processed set as it was before the run is
empty or has its maximum below the index"; a non-append call has its index below
that maximum; and the calls are a block of non-append calls followed by a block
of append calls. -/
theorem mergeSegments_single_run_flags (st : MergeState) (segments : SegmentMap)
    (h : KeysAscending segments) :
    ∃ new : List MergeCall,
      (mergeSegments st segments).merged = st.merged ++ new ∧
      (new.map MergeCall.n).Pairwise (· < ·) ∧
      (∀ c ∈ new, (c.append = true ↔
        (st.processed_segments.elems = [] ∨
          ∃ mx, st.processed_segments.IsMax mx ∧ mx < c.n))) ∧
      (∀ c ∈ new, c.append = false → ∃ mx, st.processed_segments.IsMax mx ∧ c.n < mx) ∧
      ∃ l1 l2, new = l1 ++ l2 ∧ (∀ c ∈ l1, c.append = false) ∧ (∀ c ∈ l2, c.append = true) := by
  obtain ⟨new, hm, hc, hs⟩ := mergeSegments_effect_ascending segments st h
  have hflag : ∀ c ∈ new, (c.append = true ↔
      (st.processed_segments.elems = [] ∨
        ∃ mx, st.processed_segments.IsMax mx ∧ mx < c.n)) := by
    intro c hc2
    rw [(hc c hc2).2.2, ← appendFlag_iff_forall, appendFlag_iff]
  refine ⟨new, hm, hs, hflag, ?_, ?_⟩
  · intro c hc2 hfalse
    obtain ⟨_, hnot, _⟩ := hc c hc2
    cases hl : st.processed_segments.elems.getLast? with
    | none =>
      have hnil := List.getLast?_eq_none_iff.1 hl
      have := (hflag c hc2).2 (Or.inl hnil)
      rw [hfalse] at this
      exact absurd this (by simp)
    | some last =>
      have hmax := getLast?_isMax _ st.processed_segments.ascending last hl
      refine ⟨last, hmax, ?_⟩
      by_contra hge
      have hne : last ≠ c.n := fun heq => hnot (heq ▸ hmax.1)
      have hlt : last < c.n := by omega
      have := (hflag c hc2).2 (Or.inr ⟨last, hmax, hlt⟩)
      rw [hfalse] at this
      exact absurd this (by simp)
  · apply split_of_flags_monotone
    rw [List.pairwise_map] at hs
    refine List.Pairwise.imp_of_mem ?_ hs
    intro a b ha hb hab hat
    rw [(hc b hb).2.2]
    intro x hx
    exact lt_trans ((hc a ha).2.2.1 hat x hx) hab

/-! ## Properties of the merged stream -/

/-- C3, as the sink model has it: with a route whose events are in
non-decreasing timestamp order inside each segment and across segments in index
order, for any two orders in which the segments finish loading (one
`mergeSegments` run after each completion) the final merged stream is in
non-decreasing timestamp order and holds every event of every segment exactly
once, so the two streams hold the same events; when moreover no timestamp is
shared across segments, the two streams are the same sequence, the segments one
after the other in index order. -/
theorem merged_stream_sorted_complete (route : Route) (order1 order2 : List Int)
    (hr : RouteOrdered route)
    (h1 : ∀ p ∈ route, p.1 ∈ order1) (h2 : ∀ p ∈ route, p.1 ∈ order2) :
    (mergedStream (runNotifications MergeState.init (completionStates route order1))).Pairwise
      (fun a b => a.mono_time ≤ b.mono_time) ∧
    (mergedStream (runNotifications MergeState.init (completionStates route order1))).Perm
      (route.map Prod.snd).flatten ∧
    (mergedStream (runNotifications MergeState.init (completionStates route order1))).length =
      (route.map (fun p => p.2.length)).sum ∧
    (mergedStream (runNotifications MergeState.init (completionStates route order1))).Perm
      (mergedStream (runNotifications MergeState.init (completionStates route order2))) ∧
    (StrictlyApart route →
      mergedStream (runNotifications MergeState.init (completionStates route order1)) =
        mergedStream (runNotifications MergeState.init (completionStates route order2)) ∧
      mergedStream (runNotifications MergeState.init (completionStates route order1)) =
        (route.map Prod.snd).flatten) := by
  have e1 := completion_stream_sorted route order1 hr h1
  have e2 := completion_stream_sorted route order2 hr h2
  refine ⟨e1.1, e1.2, ?_, e1.2.trans e2.2.symm, ?_⟩
  · rw [e1.2.length_eq, List.length_flatten, List.map_map]
    rfl
  · intro hstrict
    have s1 := completion_stream_eq route order1 hr hstrict h1
    have s2 := completion_stream_eq route order2 hr hstrict h2
    exact ⟨by rw [s1, s2], s1⟩

/-! ## Witnesses for the properties of `mergeSegments` -/

theorem stateA_stateB_loadsOnly : List.Chain' LoadsOnly ([stateA] ++ [stateB]) := by
  simp only [List.singleton_append, List.chain'_cons, List.chain'_singleton, and_true]
  intro n hn
  obtain ⟨seg, hm, hl⟩ := hn
  simp [stateA] at hm
  rcases hm with ⟨rfl, rfl⟩ | ⟨rfl, rfl⟩
  · exact ⟨⟨true, [⟨5, Which.CAN⟩]⟩, by simp [stateB], rfl⟩
  · simp at hl

/-- C1 at a concrete sequence: segment 1 completes first, then 0 and 2. -/
theorem processed_set_merged_once_witness :
    List.Chain' LoadsOnly ([stateA] ++ [stateB]) ∧
    (0 ∈ (runNotifications MergeState.init ([stateA] ++ [stateB])).processed_segments.elems ↔
      loadedAt stateB 0) :=
  ⟨stateA_stateB_loadsOnly,
    (processed_set_merged_once [stateA] stateB).2.2.2.2 stateA_stateB_loadsOnly 0⟩

/-- C10 at a concrete run: segment 1 processed before, then 0 and 2 in one run. -/
theorem mergeSegments_single_run_flags_witness :
    KeysAscending stateB ∧
    ∃ new : List MergeCall,
      (mergeSegments (mergeSegments MergeState.init stateA) stateB).merged =
        (mergeSegments MergeState.init stateA).merged ++ new ∧
      (new.map MergeCall.n).Pairwise (· < ·) ∧
      (∀ c ∈ new, (c.append = true ↔
        ((mergeSegments MergeState.init stateA).processed_segments.elems = [] ∨
          ∃ mx, (mergeSegments MergeState.init stateA).processed_segments.IsMax mx ∧
            mx < c.n))) ∧
      (∀ c ∈ new, c.append = false →
        ∃ mx, (mergeSegments MergeState.init stateA).processed_segments.IsMax mx ∧ c.n < mx) ∧
      ∃ l1 l2, new = l1 ++ l2 ∧ (∀ c ∈ l1, c.append = false) ∧ (∀ c ∈ l2, c.append = true) :=
  ⟨by decide,
    mergeSegments_single_run_flags (mergeSegments MergeState.init stateA) stateB (by decide)⟩

/-- C3 on three segments of ten events completing in the order 1, 0, 2,
compared with the order 0, 1, 2: no timestamp is shared across segments, the
streams are the same, of 30 events. -/
theorem merged_stream_sorted_complete_witness :
    RouteOrdered route10 ∧ StrictlyApart route10 ∧
    mergedStream (runNotifications MergeState.init (completionStates route10 [1, 0, 2])) =
      mergedStream (runNotifications MergeState.init (completionStates route10 [0, 1, 2])) ∧
    (mergedStream (runNotifications MergeState.init
      (completionStates route10 [1, 0, 2]))).length = 30 :=
  have hr : RouteOrdered route10 := by decide
  have hs : StrictlyApart route10 := by decide
  have h := merged_stream_sorted_complete route10 [1, 0, 2] [0, 1, 2] hr
    (by decide) (by decide)
  ⟨hr, hs, (h.2.2.2.2 hs).1, h.2.2.1⟩

/-- C3 as stated fails: three segments whose events share one timestamp
satisfy the assumptions, and the completion orders 0, 2, 1 and 0, 1, 2 give
different merged streams (the event of segment 1 spliced in last lands behind
that of segment 2). -/
theorem merged_stream_tie_order_dependent :
    RouteOrdered tieRoute ∧
    (∀ p ∈ tieRoute, p.1 ∈ [(0 : Int), 2, 1]) ∧ (∀ p ∈ tieRoute, p.1 ∈ [(0 : Int), 1, 2]) ∧
    mergedStream (runNotifications MergeState.init (completionStates tieRoute [0, 2, 1])) =
      [⟨10, Which.CAN⟩, ⟨10, Which.other 2⟩, ⟨10, Which.other 1⟩] ∧
    mergedStream (runNotifications MergeState.init (completionStates tieRoute [0, 1, 2])) =
      [⟨10, Which.CAN⟩, ⟨10, Which.other 1⟩, ⟨10, Which.other 2⟩] ∧
    mergedStream (runNotifications MergeState.init (completionStates tieRoute [0, 2, 1])) ≠
      mergedStream (runNotifications MergeState.init (completionStates tieRoute [0, 1, 2])) := by
  decide

/-! ## The event filter and the merge path -/

/-- C6: `eventFilter` returns true for every event; it calls `updateEvent` on
the event once when the kind is `CAN` and makes no call for any other kind; the
static `event_filter` does the same. -/
theorem eventFilter_forwards (event : Event) (log : List Effect) :
    (eventFilter event log).1 = true ∧
    (eventFilter event log).2 =
      log ++ (if event.which = Which.CAN then [Effect.updateEvent event] else []) ∧
    ((eventFilter event log).2.drop log.length).count (Effect.updateEvent event) =
      (if event.which = Which.CAN then 1 else 0) ∧
    ((eventFilter event log).2.drop log.length).length =
      (if event.which = Which.CAN then 1 else 0) ∧
    event_filter event log = eventFilter event log := by
  unfold event_filter eventFilter
  by_cases h : event.which = Which.CAN <;> simp [h]

/-! ## `loadRoute`, `pause` and `open` -/

/-- C7: `loadRoute` returns exactly what the provider's `load()` returns; the
effects it adds are a block that holds the push of the cache limit and the
installation of the event filter but neither `load` nor `start`, then `load`,
then `start` once if `load()` succeeded and nothing if it failed. -/
theorem loadRoute_result (env : Env) (self : Controller) (route data_dir : String)
    (replay_flags : Nat) (log : List Effect) :
    (loadRoute env self route data_dir replay_flags log).1 =
      env.load route data_dir replay_flags ∧
    ∃ before : List Effect,
      (loadRoute env self route data_dir replay_flags log).2.2 =
        log ++ before ++ [Effect.replayLoad] ++
          (if env.load route data_dir replay_flags then [Effect.replayStart] else []) ∧
      Effect.setSegmentCacheLimit env.max_cached_minutes ∈ before ∧
      Effect.installEventFilter ∈ before ∧
      Effect.replayLoad ∉ before ∧
      Effect.replayStart ∉ before ∧
      ((loadRoute env self route data_dir replay_flags log).2.2.drop log.length).count
        Effect.replayStart = (if env.load route data_dir replay_flags then 1 else 0) := by
  unfold loadRoute
  cases h : env.load route data_dir replay_flags
  · refine ⟨by simp, [Effect.replayNew route
      ["can", "roadEncodeIdx", "wideRoadEncodeIdx", "carParams"] replay_flags data_dir,
      Effect.setSegmentCacheLimit env.max_cached_minutes, Effect.installEventFilter,
      Effect.connectSeekedTo, Effect.connectStreamStarted, Effect.connectSegmentsMerged],
      by simp, by simp, by simp, by simp, by simp, ?_⟩
    simp [List.count_cons]
  · refine ⟨by simp, [Effect.replayNew route
      ["can", "roadEncodeIdx", "wideRoadEncodeIdx", "carParams"] replay_flags data_dir,
      Effect.setSegmentCacheLimit env.max_cached_minutes, Effect.installEventFilter,
      Effect.connectSeekedTo, Effect.connectStreamStarted, Effect.connectSegmentsMerged],
      by simp, by simp, by simp, by simp, by simp, ?_⟩
    simp [List.count_cons]

/-- C8 as stated fails: `loadRoute` called with the empty route constructs the
provider, connects its `segmentsMerged` signal and attempts `load()`. -/
theorem loadRoute_empty_route_constructs_provider :
    (loadRoute env20 Controller.new "" "" 0 []).2.2 =
      [Effect.replayNew "" ["can", "roadEncodeIdx", "wideRoadEncodeIdx", "carParams"] 0 "",
       Effect.setSegmentCacheLimit 30, Effect.installEventFilter, Effect.connectSeekedTo,
       Effect.connectStreamStarted, Effect.connectSegmentsMerged, Effect.replayLoad] ∧
    (loadRoute env20 Controller.new "" "" 0 []).2.1.replay = true := by
  decide

/-- C8, as the code has it: a route that `Route::parseRoute` does not accept is
rejected by `OpenReplayWidget::open` before `loadRoute` is called: `open`
returns false, its only effect is the warning, so no stream and no provider is
constructed and nothing is connected to `segmentsMerged`; the widget's stream
is left as it was. -/
theorem open_rejects_invalid_route (env : Env) (text : String) (currentIndex : Fin 5)
    (stream : Option Controller) (log : List Effect)
    (h : (env.parseRoute (splitRoute text).2).length = 0) :
    OpenReplayWidget.open env text currentIndex stream log =
      (false, stream,
        log ++ [Effect.warning ("Invalid route format: '" ++ (splitRoute text).2 ++ "'")]) := by
  unfold OpenReplayWidget.open
  simp [h]

/-- C8 at the empty string, which `env20.parseRoute` does not accept. -/
theorem open_rejects_invalid_route_witness :
    (env20.parseRoute (splitRoute "").2).length = 0 ∧
    OpenReplayWidget.open env20 "" 1 none [] =
      (false, none, [] ++ [Effect.warning ("Invalid route format: '" ++ (splitRoute "").2 ++ "'")]) :=
  ⟨by decide, open_rejects_invalid_route env20 "" 1 none [] (by decide)⟩

/-- C9: on a stream that holds a provider, `pause(flag)` first calls the
provider's `pause(flag)` and then emits one signal, `paused` for true and
`resume` for false; so `pause(true)` followed by `pause(false)` adds the trace
provider pause(true), paused, provider pause(false), resume. -/
theorem pause_trace (self : Controller) (flag : Bool) (log : List Effect)
    (h : self.replay = true) :
    pause self flag log =
      some (log ++ [Effect.replayPause flag,
        if flag then Effect.emitPaused else Effect.emitResume]) ∧
    (pause self true log).bind (fun log1 => pause self false log1) =
      some (log ++ [Effect.replayPause true, Effect.emitPaused,
        Effect.replayPause false, Effect.emitResume]) := by
  unfold pause
  simp [h]

/-- C9 on a stream whose provider was set up by `loadRoute`. -/
theorem pause_trace_witness :
    (loadRoute env20 Controller.new "2023-01-01--12-00-00" "" 0 []).2.1.replay = true ∧
    (pause (loadRoute env20 Controller.new "2023-01-01--12-00-00" "" 0 []).2.1 true []).bind
      (fun log1 => pause (loadRoute env20 Controller.new "2023-01-01--12-00-00" "" 0 []).2.1
        false log1) =
      some ([] ++ [Effect.replayPause true, Effect.emitPaused,
        Effect.replayPause false, Effect.emitResume]) :=
  ⟨rfl, (pause_trace (loadRoute env20 Controller.new "2023-01-01--12-00-00" "" 0 []).2.1 true []
    rfl).2⟩


end ReplayStream
